/-
Verification of the graph module and BFS reachability query
(`graph.c` + `is_connected.c`) of the Datastrukturer-och-Algoritmer
repository, as a shallow embedding in Lean 4.

Modelling conventions:
- C heap nodes are keyed by their (unique) name string; a `node*` is
  represented by the node's name, and the per-object mutable state
  (`seen`, `adjacent_nodes`) lives in the graph's node array.
- The course container libraries (`array_1d.c`, `dlist.c`, `list.c`,
  `queue.c`) ship with the repository but are not under `src/`; their
  operations are modelled from the spec's words (fixed index range with
  optional slots; insertion of a value before a list position, so that
  insertion at the first position prepends; FIFO queue).
- `exit(EXIT_FAILURE)` paths are modelled with `Except`.
- The unbounded C `while` loop of `find_path` is modelled with an
  explicit fuel parameter; running out of fuel yields `none`
  (proved unreachable on well-formed graphs).
-/
import Mathlib

namespace DoA

/-- `struct node` from graph.c: a name, a mutable `seen` flag, and the
adjacency list `adjacent_nodes` (a dlist of node pointers, modelled as the
list of the adjacent nodes' names, front = most recently inserted). -/
structure node where
  name : String
  seen : Bool
  adjacent_nodes : List String
deriving DecidableEq, Repr

/-- Modelled from the spec: `array_1d.c` is not under `src/`.  An
`array_1d` with low index 0 (the program always creates its arrays with
low index 0) is a fixed-length list of optional slots; slot `i` of the C
array is entry `i` of the list. -/
abbrev array_1d := List (Option node)

/-- Modelled from the spec: `array_1d_create(0, hi, NULL)` — a fresh array
with indices `0..hi`, all slots unoccupied. -/
def array_1d_create (hi : Nat) : array_1d :=
  List.replicate (hi + 1) none

/-- Modelled from the spec: `array_1d_high` — the highest legal index. -/
def array_1d_high (a : array_1d) : Nat :=
  a.length - 1

/-- Modelled from the spec: `array_1d_set_value(a, v, i)` — store `v` at
index `i` (out-of-range stores, undefined in C, leave the array as is). -/
def array_1d_set_value (a : array_1d) (v : Option node) (i : Nat) : array_1d :=
  a.set i v

/-- Modelled from the spec: `array_1d_inspect_value(a, i)` — the value at
index `i` (`none` for an unoccupied or out-of-range slot, where the C
behaviour is undefined). -/
def array_1d_inspect_value (a : array_1d) (i : Nat) : Option node :=
  a.getD i none

/-- Modelled from the spec: `array_1d_has_value(a, i)`. -/
def array_1d_has_value (a : array_1d) (i : Nat) : Bool :=
  (a.getD i none).isSome

/-- `struct graph` from graph.c: the `nodes` field is a *pointer* to an
`array_1d` (`none` models a NULL pointer — `graph_is_empty` compares this
pointer against 0), plus the node counter `node_amount`. -/
structure graph where
  nodes : Option array_1d
  node_amount : Nat
deriving DecidableEq, Repr

/-- The array behind the graph's `nodes` pointer (dereferencing; the C
behaviour on a NULL pointer is undefined, modelled by an empty array). -/
def garr (g : graph) : array_1d :=
  g.nodes.getD []

/-- `nodes_are_equal()` from graph.c: node equality is name equality
(`strcmp(n1->name, n2->name) == 0`); with nodes represented by their
names this is string equality. -/
def nodes_are_equal (n1 n2 : String) : Bool :=
  n1 == n2

/-- `graph_empty()` from graph.c: allocate the graph, create the node
array with indices `0..max_nodes`, zero the node counter. -/
def graph_empty (max_nodes : Nat) : graph :=
  { nodes := some (array_1d_create max_nodes), node_amount := 0 }

/-- `graph_is_empty()` from graph.c: `return g->nodes == 0;` — this
compares the node-array *pointer* against NULL, not the node count. -/
def graph_is_empty (g : graph) : Bool :=
  g.nodes.isNone

/-- The scan inside `graph_find_node()`: walk the first `node_amount`
array slots and return the first stored node whose name matches
(inspecting an unoccupied slot is undefined in C; modelled by skipping). -/
def findNodeScan : List (Option node) → String → Option node
  | [], _ => none
  | some n :: rest, s => if n.name = s then some n else findNodeScan rest s
  | none :: rest, s => findNodeScan rest s

/-- `graph_find_node()` from graph.c: linear scan over the slots
`0 .. node_amount - 1`, comparing names with `strcmp`. -/
def graph_find_node (g : graph) (s : String) : Option node :=
  findNodeScan ((garr g).take g.node_amount) s

/-- `graph_insert_node()` from graph.c: build a node with a copy of the
name, an empty adjacency list and `seen = false`, store it at index
`node_amount`, and increment the counter. -/
def graph_insert_node (g : graph) (s : String) : graph :=
  { nodes := some (array_1d_set_value (garr g)
      (some { name := s, seen := false, adjacent_nodes := [] }) g.node_amount),
    node_amount := g.node_amount + 1 }

/-- `graph_node_is_seen()` from graph.c: read `n->seen` of the node the
pointer refers to — in the name-keyed model, of the first stored node
with that name. -/
def graph_node_is_seen (g : graph) (s : String) : Bool :=
  match graph_find_node g s with
  | some n => n.seen
  | none => false

/-- In-place update of the first stored node with a given name (the
name-keyed rendering of writing through a `node*`). -/
def update_first : List (Option node) → String → (node → node) → List (Option node)
  | [], _, _ => []
  | some n :: rest, s, f =>
      if n.name = s then some (f n) :: rest else some n :: update_first rest s f
  | none :: rest, s, f => none :: update_first rest s f

/-- `graph_node_set_seen()` from graph.c: `n->seen = seen;`. -/
def graph_node_set_seen (g : graph) (s : String) (b : Bool) : graph :=
  { g with nodes := some (update_first (garr g) s (fun n => { n with seen := b })) }

/-- The loop body of `graph_reset_seen()`: for the first `k` slots, if the
slot is occupied, clear the node's `seen` flag. -/
def resetVals : Nat → List (Option node) → List (Option node)
  | _, [] => []
  | 0, vs => vs
  | k + 1, v :: vs => v.map (fun n => { n with seen := false }) :: resetVals k vs

/-- `graph_reset_seen()` from graph.c: clear the `seen` flag of every node
stored at indices `0 .. node_amount - 1`. -/
def graph_reset_seen (g : graph) : graph :=
  { g with nodes := some (resetVals g.node_amount (garr g)) }

/-- `graph_insert_edge()` from graph.c: `dlist_insert` the destination at
`dlist_first` of the source's adjacency list, i.e. prepend it
(undefined in C unless both nodes are in the graph). -/
def graph_insert_edge (g : graph) (n1 n2 : String) : graph :=
  { g with nodes := some (update_first (garr g) n1
      (fun n => { n with adjacent_nodes := n2 :: n.adjacent_nodes })) }

/-- `graph_has_edges()` from graph.c: some node among the first
`node_amount` slots has a non-empty adjacency list. -/
def graph_has_edges (g : graph) : Bool :=
  ((garr g).take g.node_amount).any (fun v =>
    match v with
    | some n => !n.adjacent_nodes.isEmpty
    | none => false)

/-- The scan inside `graph_choose_node()`: first occupied slot. -/
def chooseScan : List (Option node) → Option node
  | [] => none
  | some n :: _ => some n
  | none :: rest => chooseScan rest

/-- `graph_choose_node()` from graph.c: if `node_amount > 0`, scan the
array from the low to the high index and return the first stored node;
otherwise (or when no slot is occupied) return NULL. -/
def graph_choose_node (g : graph) : Option node :=
  if g.node_amount > 0 then chooseScan (garr g) else none

/-- `graph_neighbours()` from graph.c: `return n->adjacent_nodes;` — the
adjacency list of the node the pointer refers to. -/
def graph_neighbours (g : graph) (s : String) : List String :=
  match graph_find_node g s with
  | some n => n.adjacent_nodes
  | none => []

-- ===== derived views used to state properties =====

/-- The nodes the graph API sees: the occupied slots among the first
`node_amount` positions, in index order. -/
def nodesList (g : graph) : List node :=
  ((garr g).take g.node_amount).filterMap id

/-- The names of the stored nodes, in index order. -/
def storedNames (g : graph) : List String :=
  (nodesList g).map node.name

/-- A name is stored in the graph. -/
def isStored (g : graph) (s : String) : Prop :=
  s ∈ storedNames g

instance (g : graph) (s : String) : Decidable (isStored g s) := by
  unfold isStored; infer_instance

/-- Every stored node's `seen` flag is false (the resting state of the
graph between reachability queries). -/
def allSeenFalse (g : graph) : Prop :=
  ∀ n ∈ nodesList g, n.seen = false

instance (g : graph) : Decidable (allSeenFalse g) := by
  unfold allSeenFalse; infer_instance

/-- Number of stored nodes not yet seen (the BFS termination measure). -/
def unseenCount (g : graph) : Nat :=
  (nodesList g).countP (fun n => !n.seen)

/-- Well-formedness of a graph as maintained by the graph.c API: the node
array is allocated, exactly the slots `0 .. node_amount - 1` are occupied,
node names are unique, and every adjacency entry names a stored node. -/
def WF (g : graph) : Prop :=
  g.nodes.isSome = true ∧
  (∀ i < g.node_amount, ((garr g).getD i none).isSome = true) ∧
  (∀ i < (garr g).length, g.node_amount ≤ i → (garr g).getD i none = none) ∧
  (storedNames g).Nodup ∧
  (∀ n ∈ nodesList g, ∀ m ∈ n.adjacent_nodes, m ∈ storedNames g)

instance (g : graph) : Decidable (WF g) := by
  unfold WF; infer_instance

-- ===== the Reachability Engine (is_connected.c) =====

/-- `visit_node()` from is_connected.c: if the node is not seen, mark it
seen and enqueue it (FIFO queue modelled as a list, enqueue at the back). -/
def visit_node (g : graph) (n : String) (q : List String) : graph × List String :=
  if !graph_node_is_seen g n then (graph_node_set_seen g n true, q ++ [n])
  else (g, q)

/-- The inner neighbour loop of `find_path()`: walk the snapshot copy of
the dequeued node's adjacency list; if a neighbour equals the destination
(`nodes_are_equal`), stop with the current graph (`.error g`); otherwise
`visit_node` it and continue.  `.ok` returns the graph and queue after
the whole snapshot has been processed. -/
def process_neighbours (g : graph) (dest : String) (q : List String) :
    List String → Except graph (graph × List String)
  | [] => .ok (g, q)
  | m :: rest =>
      if nodes_are_equal m dest then .error g
      else
        let gq := visit_node g m q
        process_neighbours gq.1 dest gq.2 rest

/-- The `while (!queue_is_empty(q))` loop of `find_path()` with an
explicit fuel bound on the number of iterations.  Each iteration dequeues
a node, snapshots its adjacency list by prepending each element to a
fresh dlist (so the snapshot is the reversed adjacency list), and scans
the snapshot.  Finding the destination triggers `destination_found`
(reset all seen flags, return true); an empty queue resets all seen flags
and returns false.  `none` models a run that exceeds the fuel. -/
def find_path_aux : Nat → graph → String → List String → Option (Bool × graph)
  | 0, _, _, _ => none
  | fuel + 1, g, dest, q =>
      match q with
      | [] => some (false, graph_reset_seen g)
      | n :: q' =>
          let neighbourSetCopy := (graph_neighbours g n).reverse
          match process_neighbours g dest q' neighbourSetCopy with
          | .error g' => some (true, graph_reset_seen g')
          | .ok (g', q'') => find_path_aux fuel g' dest q''

/-- `find_path()` from is_connected.c: mark the source seen, enqueue it,
and run the BFS loop.  The fuel `2 * node_amount + 2` strictly exceeds
the loop's termination measure `2 * unseenCount + queue length`, so on
well-formed graphs the result is never `none`. -/
def find_path (g : graph) (src dest : String) : Option (Bool × graph) :=
  let g1 := graph_node_set_seen g src true
  find_path_aux (2 * g1.node_amount + 2) g1 dest [src]

-- ===== the Graph Loader (is_connected.c) =====

/-- `isalnum()` as restricted to the C locale: ASCII letters and digits;
Lean's `Char.isAlphanum` is exactly this predicate. -/
def isalnum (c : Char) : Bool :=
  c.isAlphanum

/-- Split a character stream into maximal whitespace-free tokens
(the behaviour of repeated `%s` conversions); `cur` is the token being
accumulated, in reverse. -/
def tokenizeAux : List Char → List Char → List String
  | [], [] => []
  | [], cur => [String.mk cur.reverse]
  | c :: cs, cur =>
      if c.isWhitespace then
        if cur.isEmpty then tokenizeAux cs []
        else String.mk cur.reverse :: tokenizeAux cs []
      else tokenizeAux cs (c :: cur)

/-- `line[0]`: the first character of a line (fgets lines are never
empty; the empty string maps to NUL). -/
def strFront (s : String) : Char :=
  s.toList.headD (Char.ofNat 0)

/-- `line[strlen(line) - 1]`: the last character of a line. -/
def strBack (s : String) : Char :=
  s.toList.getLastD (Char.ofNat 0)

/-- Value of a decimal digit string read left to right. -/
def digitsToNat (cs : List Char) : Nat :=
  cs.foldl (fun acc c => acc * 10 + (c.toNat - '0'.toNat)) 0

/-- `strtol(s, NULL, 10)` on a string whose first character is a digit:
the value of the leading digit run. -/
def strtol10 (s : String) : Nat :=
  digitsToNat (s.toList.takeWhile Char.isDigit)

/-- Overwriting the final character with `'\0'`: drop the last character. -/
def strDropLast (s : String) : String :=
  String.mk s.toList.dropLast

/-- `validate_node_names()` from is_connected.c: every character of both
names must be alphanumeric, and both names must be at most 40 characters
long; any violation prints an error and yields false. -/
def validate_node_names (src dest : String) : Bool :=
  if !(src.toList.all isalnum) then false
  else if !(dest.toList.all isalnum) then false
  else if src.length > 40 then false
  else if dest.length > 40 then false
  else true

/-- `sscanf(line, "%s%s", src, dest)`: the first two whitespace-separated
tokens of the line (fewer than two tokens is undefined behaviour in the C,
modelled by the empty string). -/
def sscanf2 (line : String) : String × String :=
  let toks := tokenizeAux line.toList []
  (toks.getD 0 "", toks.getD 1 "")

/-- The scan of `get_number_of_edges()`: read lines until one starts with
a digit *and* ends in a newline; strip the newline and parse it with
`strtol` (the leading digit run).  Returns the parsed count and the
remaining lines (the file position after the loop), or `none` when no
such line exists. -/
def get_edges_split : List String → Option (Nat × List String)
  | [] => none
  | line :: rest =>
      if '0' ≤ strFront line ∧ strFront line ≤ '9' then
        if strBack line = '\n' then
          some (strtol10 (strDropLast line), rest)
        else get_edges_split rest
      else get_edges_split rest

/-- `get_number_of_edges()` from is_connected.c: if the scan found a
count line and the count is positive, return `edgeCount * 2`, else 0. -/
def get_number_of_edges (lines : List String) : Nat :=
  match get_edges_split lines with
  | some (edgeCount, _) => if edgeCount > 0 then edgeCount * 2 else 0
  | none => 0

/-- An edge record (`struct graph_edges`): a (source, destination) pair
of node names. -/
abbrev graph_edges := String × String

/-- `add_edges_to_list()` from is_connected.c: for each line that starts
with neither `#` nor a newline, scan two tokens and validate them; a
validation failure exits the process (`.error`).  Each record is
`list_insert`-ed before the previously inserted one, so the resulting
list holds the records in reverse file order (the accumulator). -/
def add_edges_to_list (acc : List graph_edges) : List String → Except Unit (List graph_edges)
  | [] => .ok acc
  | line :: rest =>
      if strFront line ≠ '#' ∧ strFront line ≠ '\n' then
        let sd := sscanf2 line
        if validate_node_names sd.1 sd.2 then
          add_edges_to_list ((sd.1, sd.2) :: acc) rest
        else .error ()
      else add_edges_to_list acc rest

/-- `info_from_file()` from is_connected.c: compute
`edges_amount = get_number_of_edges(...)`, exit if it is 0, otherwise
parse the edge records from the remaining lines and return
`edges_amount * 2` together with the records. -/
def info_from_file (lines : List String) : Except Unit (Nat × List graph_edges) :=
  let edges_amount := get_number_of_edges lines
  if edges_amount = 0 then .error ()
  else
    let rest := ((get_edges_split lines).map Prod.snd).getD []
    match add_edges_to_list [] rest with
    | .ok es => .ok (edges_amount * 2, es)
    | .error e => .error e

/-- `create_graph()` from is_connected.c: for each edge record, find or
insert the source node, find or insert the destination node, then insert
the directed edge source → destination. -/
def create_graph (g : graph) : List graph_edges → graph
  | [] => g
  | (s, d) :: rest =>
      let g1 := if (graph_find_node g s).isNone then graph_insert_node g s else g
      let g2 := if (graph_find_node g1 d).isNone then graph_insert_node g1 d else g1
      create_graph (graph_insert_edge g2 s d) rest

/-- `prepare_graph()` from is_connected.c: read the file info, create the
empty graph with the computed capacity, and build it from the edge
records. -/
def prepare_graph (lines : List String) : Except Unit graph :=
  match info_from_file lines with
  | .ok (edges_amount, es) => .ok (create_graph (graph_empty edges_amount) es)
  | .error e => .error e

/-- The capacity a graph was created with: the high index of its node
array (`graph_empty max_nodes` creates the array `0..max_nodes`). -/
def graph_capacity (g : graph) : Nat :=
  array_1d_high (garr g)

/-- One directed edge recorded in the graph: `y` is in `x`'s adjacency
list. -/
def hasEdge (g : graph) (x y : String) : Prop :=
  y ∈ graph_neighbours g x

/-- The reference path-existence check: a directed walk in the recorded
edge set (reflexive-transitive closure of `hasEdge`). -/
def Reach (g : graph) (a b : String) : Prop :=
  Relation.ReflTransGen (hasEdge g) a b

/-- The traversal-invariant part of a node: its name and adjacency list
(everything except the mutable `seen` flag). -/
def nodeShape (n : node) : String × List String :=
  (n.name, n.adjacent_nodes)

/-- Two graphs agreeing on everything except `seen` flags: same node
count and slot-wise equal occupancy, names and adjacency. -/
def sameShape (g h : graph) : Prop :=
  g.node_amount = h.node_amount ∧
  (garr g).map (Option.map nodeShape) = (garr h).map (Option.map nodeShape)

/-- A chronological sequence of `graph_insert_edge` calls. -/
def insert_edges (g : graph) (es : List graph_edges) : graph :=
  es.foldl (fun h e => graph_insert_edge h e.1 e.2) g

/-- The name `a` appears in no stored node's adjacency list (`a` has no
incoming edges). -/
def noIncoming (g : graph) (a : String) : Prop :=
  ∀ n ∈ nodesList g, a ∉ n.adjacent_nodes

instance (g : graph) (a : String) : Decidable (noIncoming g a) := by
  unfold noIncoming; infer_instance

/-- The BFS loop invariant for `find_path_aux` relative to the original
graph `g`, source `a` and destination `b`: the current graph `g'` has the
shape of `g`; queued nodes are stored and seen; seen nodes are reachable
from `a` and distinct from `b`; the source is seen; and every seen node
that has left the queue has had its whole adjacency list processed. -/
structure BfsInv (g : graph) (a b : String) (g' : graph) (q : List String) : Prop where
  shape : sameShape g g'
  hq : ∀ x ∈ q, graph_node_is_seen g' x = true ∧ isStored g x
  hseen : ∀ x, graph_node_is_seen g' x = true → Reach g a x ∧ x ≠ b
  hclosed : ∀ x, graph_node_is_seen g' x = true → x ∉ q →
    ∀ m ∈ graph_neighbours g x, m ≠ b ∧ graph_node_is_seen g' m = true
  ha_seen : graph_node_is_seen g' a = true


/-- What one completed pass of the neighbour loop guarantees: shape is
preserved, `seen` grows monotonically and only by snapshot members, the
queue grows only by snapshot members, every snapshot member is distinct
from the destination and seen afterwards, previously-unseen members were
enqueued, and the termination measure does not increase. -/
structure ProcessOk (g g' : graph) (q₀ : List String) (b : String) (ms : List String)
    (g₂ : graph) (q₂ : List String) : Prop where
  shape : sameShape g g₂
  mono : ∀ x, graph_node_is_seen g' x = true → graph_node_is_seen g₂ x = true
  newSeen : ∀ x, graph_node_is_seen g₂ x = true → graph_node_is_seen g' x = true ∨ x ∈ ms
  qMem : ∀ x ∈ q₂, x ∈ q₀ ∨ x ∈ ms
  qSub : ∀ x ∈ q₀, x ∈ q₂
  processed : ∀ m ∈ ms, m ≠ b ∧ graph_node_is_seen g₂ m = true
  enqueued : ∀ m ∈ ms, graph_node_is_seen g' m = false → m ∈ q₂
  score : 2 * unseenCount g₂ + q₂.length ≤ 2 * unseenCount g' + q₀.length

/-- The graph that `create_graph` builds from the edge records of the
sample file with edge lines `A B` and `B C` (records arrive in reverse
file order, capacity 8 = 4 edges declared-doubled twice). -/
def sampleGraph : graph :=
  create_graph (graph_empty 8) [("B", "C"), ("A", "B")]



-- ===== list-level lemmas about the node array =====

theorem update_first_length (s : String) (f : node → node) :
    ∀ vs : List (Option node), (update_first vs s f).length = vs.length := by
  intro vs
  induction vs with
  | nil => rfl
  | cons v rest ih =>
    cases v with
    | none => simp [update_first, ih]
    | some n =>
      by_cases h : n.name = s <;> simp [update_first, h, ih]

theorem findNodeScan_isSome_iff (s : String) :
    ∀ vs : List (Option node),
      (findNodeScan vs s).isSome = true ↔ s ∈ (vs.filterMap id).map node.name := by
  intro vs
  induction vs with
  | nil => simp [findNodeScan]
  | cons v rest ih =>
    cases v with
    | none => simpa [findNodeScan] using ih
    | some n =>
      by_cases h : n.name = s
      · simp [findNodeScan, h]
      · simp [findNodeScan, h, ih, Ne.symm h]

theorem findNodeScan_mem (s : String) :
    ∀ (vs : List (Option node)) (n : node), findNodeScan vs s = some n →
      n ∈ vs.filterMap id ∧ n.name = s := by
  intro vs
  induction vs with
  | nil => intro n h; simp [findNodeScan] at h
  | cons v rest ih =>
    intro n h
    cases v with
    | none =>
      have := ih n (by simpa [findNodeScan] using h)
      exact ⟨by simp [this.1], this.2⟩
    | some m =>
      by_cases hm : m.name = s
      · simp [findNodeScan, hm] at h
        subst h
        exact ⟨by simp, hm⟩
      · have := ih n (by simpa [findNodeScan, hm] using h)
        exact ⟨by simp [this.1], this.2⟩



theorem findNodeScan_take_update_ne (s : String) (f : node → node)
    (hf : ∀ x, (f x).name = x.name) (n : String) (hns : n ≠ s) :
    ∀ (vs : List (Option node)) (k : Nat),
      findNodeScan ((update_first vs s f).take k) n = findNodeScan (vs.take k) n := by
  intro vs
  induction vs with
  | nil => intro k; rfl
  | cons v rest ih =>
    intro k
    cases k with
    | zero => rfl
    | succ k =>
      cases v with
      | none => simpa [update_first, findNodeScan] using ih k
      | some m =>
        by_cases hm : m.name = s
        · have hsn : ¬ s = n := fun h => hns h.symm
          have hmn : ¬ m.name = n := by rw [hm]; exact hsn
          have hfn : ¬ (f m).name = n := by rw [hf m]; exact hmn
          simp [update_first, hm, findNodeScan, hmn, hfn, hsn]
        · by_cases hmn : m.name = n
          · simp [update_first, hm, findNodeScan, hmn, hns]
          · simpa [update_first, hm, findNodeScan, hmn] using ih k

theorem take_update_first_of_found (s : String) (f : node → node) :
    ∀ (vs : List (Option node)) (k : Nat), (findNodeScan (vs.take k) s).isSome = true →
      (update_first vs s f).take k = update_first (vs.take k) s f := by
  intro vs
  induction vs with
  | nil => intro k h; simp [update_first]
  | cons v rest ih =>
    intro k h
    cases k with
    | zero => simp [findNodeScan] at h
    | succ k =>
      cases v with
      | none =>
        simp only [List.take_succ_cons, findNodeScan] at h
        simp [update_first, ih k h]
      | some m =>
        by_cases hm : m.name = s
        · simp [update_first, hm]
        · simp only [List.take_succ_cons, findNodeScan, hm, if_false] at h
          simp [update_first, hm, ih k h]

theorem findNodeScan_update_self (s : String) (f : node → node)
    (hf : ∀ x, (f x).name = x.name) :
    ∀ vs : List (Option node),
      findNodeScan (update_first vs s f) s = (findNodeScan vs s).map f := by
  intro vs
  induction vs with
  | nil => rfl
  | cons v rest ih =>
    cases v with
    | none => simpa [update_first, findNodeScan] using ih
    | some m =>
      by_cases hm : m.name = s
      · simp [update_first, hm, findNodeScan, hf m]
      · simpa [update_first, hm, findNodeScan] using ih

theorem findNodeScan_take_update_self_none (s : String) (f : node → node) :
    ∀ (vs : List (Option node)) (k : Nat), findNodeScan (vs.take k) s = none →
      findNodeScan ((update_first vs s f).take k) s = none := by
  intro vs
  induction vs with
  | nil => intro k h; simpa [update_first] using h
  | cons v rest ih =>
    intro k h
    cases k with
    | zero => rfl
    | succ k =>
      cases v with
      | none => simpa [update_first, findNodeScan] using ih k (by simpa [findNodeScan] using h)
      | some m =>
        by_cases hm : m.name = s
        · simp [findNodeScan, hm] at h
        · simp only [List.take_succ_cons, findNodeScan, hm, if_false] at h
          simpa [update_first, hm, findNodeScan] using ih k h

theorem map_name_update_first (s : String) (f : node → node)
    (hf : ∀ x, (f x).name = x.name) :
    ∀ vs : List (Option node),
      (update_first vs s f).map (Option.map node.name) = vs.map (Option.map node.name) := by
  intro vs
  induction vs with
  | nil => rfl
  | cons v rest ih =>
    cases v with
    | none => simpa [update_first] using ih
    | some m =>
      by_cases hm : m.name = s
      · simp [update_first, hm, hf m]
      · simpa [update_first, hm] using ih

theorem map_shape_update_first (s : String) (f : node → node)
    (hf : ∀ x, nodeShape (f x) = nodeShape x) :
    ∀ vs : List (Option node),
      (update_first vs s f).map (Option.map nodeShape) = vs.map (Option.map nodeShape) := by
  intro vs
  induction vs with
  | nil => rfl
  | cons v rest ih =>
    cases v with
    | none => simpa [update_first] using ih
    | some m =>
      by_cases hm : m.name = s
      · simp [update_first, hm, hf m]
      · simpa [update_first, hm] using ih



theorem resetVals_length : ∀ (k : Nat) (vs : List (Option node)),
    (resetVals k vs).length = vs.length := by
  intro k vs
  induction vs generalizing k with
  | nil => cases k <;> rfl
  | cons v rest ih =>
    cases k with
    | zero => rfl
    | succ k => simp [resetVals, ih k]

theorem resetVals_getD : ∀ (k : Nat) (vs : List (Option node)) (i : Nat),
    (resetVals k vs).getD i none =
      if i < k then ((vs.getD i none).map fun n => { n with seen := false })
      else vs.getD i none := by
  intro k vs
  induction vs generalizing k with
  | nil => intro i; cases k <;> simp [resetVals]
  | cons v rest ih =>
    intro i
    cases k with
    | zero => simp [resetVals]
    | succ k =>
      cases i with
      | zero => simp [resetVals]
      | succ i => simpa [resetVals, Nat.succ_lt_succ_iff] using ih k i

theorem resetVals_take : ∀ (k : Nat) (vs : List (Option node)),
    (resetVals k vs).take k = (vs.take k).map (Option.map fun n => { n with seen := false }) := by
  intro k vs
  induction vs generalizing k with
  | nil => cases k <;> rfl
  | cons v rest ih =>
    cases k with
    | zero => rfl
    | succ k => simp [resetVals, ih k]

theorem resetVals_map_shape : ∀ (k : Nat) (vs : List (Option node)),
    (resetVals k vs).map (Option.map nodeShape) = vs.map (Option.map nodeShape) := by
  intro k vs
  induction vs generalizing k with
  | nil => cases k <;> rfl
  | cons v rest ih =>
    cases k with
    | zero => rfl
    | succ k =>
      cases v with
      | none => simp [resetVals, ih k]
      | some n => simp [resetVals, ih k, nodeShape]

theorem countP_unseen_update (s : String) :
    ∀ (ws : List (Option node)) (n₀ : node), findNodeScan ws s = some n₀ → n₀.seen = false →
      ((update_first ws s (fun n => { n with seen := true })).filterMap id).countP
          (fun n => !n.seen) + 1
        = (ws.filterMap id).countP (fun n => !n.seen) := by
  intro ws
  induction ws with
  | nil => intro n₀ h; simp [findNodeScan] at h
  | cons v rest ih =>
    intro n₀ h hu
    cases v with
    | none =>
      simp only [findNodeScan] at h
      simpa [update_first] using ih n₀ h hu
    | some m =>
      by_cases hm : m.name = s
      · simp only [findNodeScan, hm, if_pos rfl] at h
        obtain rfl : m = n₀ := by injection h
        simp [update_first, hm, List.countP_cons, hu]
      · simp only [findNodeScan, hm, if_false] at h
        have := ih n₀ h hu
        cases hms : m.seen <;> simp [update_first, hm, List.countP_cons, hms] <;> omega

theorem getD_map_shape : ∀ (vs : List (Option node)) (i : Nat),
    (vs.map (Option.map nodeShape)).getD i none = (vs.getD i none).map nodeShape := by
  intro vs
  induction vs with
  | nil => intro i; simp
  | cons v rest ih =>
    intro i
    cases i with
    | zero => simp
    | succ i => simpa using ih i

theorem list_eq_of_getD : ∀ (l₁ l₂ : List (Option node)), l₁.length = l₂.length →
    (∀ i, l₁.getD i none = l₂.getD i none) → l₁ = l₂ := by
  intro l₁
  induction l₁ with
  | nil => intro l₂ hl _; cases l₂ <;> simp_all
  | cons v rest ih =>
    intro l₂ hl h
    cases l₂ with
    | nil => simp at hl
    | cons w rest₂ =>
      have hv : v = w := h 0
      have : rest = rest₂ := ih rest₂ (by simpa using hl) (fun i => h (i + 1))
      rw [hv, this]

theorem mem_filterMap_take_of_getD : ∀ (vs : List (Option node)) (k i : Nat) (n : node),
    i < k → vs.getD i none = some n → n ∈ (vs.take k).filterMap id := by
  intro vs
  induction vs with
  | nil => intro k i n _ h; simp at h
  | cons v rest ih =>
    intro k i n hik h
    cases k with
    | zero => omega
    | succ k =>
      cases i with
      | zero =>
        obtain rfl : v = some n := h
        simp
      | succ i =>
        have := ih k i n (by omega) h
        simp only [List.take_succ_cons, List.filterMap_cons]
        cases v <;> simp [this]



-- ===== graph-level lemmas =====

theorem isStored_iff (g : graph) (s : String) :
    isStored g s ↔ (graph_find_node g s).isSome = true := by
  unfold isStored storedNames nodesList graph_find_node
  exact (findNodeScan_isSome_iff s _).symm

theorem seen_isStored (g : graph) (s : String)
    (h : graph_node_is_seen g s = true) : isStored g s := by
  rw [isStored_iff]
  unfold graph_node_is_seen at h
  cases hf : graph_find_node g s with
  | none => rw [hf] at h; simp at h
  | some n => simp [hf]

theorem garr_set_seen (g : graph) (s : String) (b : Bool) :
    garr (graph_node_set_seen g s b)
      = update_first (garr g) s (fun n => { n with seen := b }) := rfl

theorem amount_set_seen (g : graph) (s : String) (b : Bool) :
    (graph_node_set_seen g s b).node_amount = g.node_amount := rfl

theorem find_set_seen_ne (g : graph) (s : String) (b : Bool) (x : String) (hx : x ≠ s) :
    graph_find_node (graph_node_set_seen g s b) x = graph_find_node g x := by
  unfold graph_find_node
  rw [garr_set_seen, amount_set_seen]
  exact findNodeScan_take_update_ne s (fun n => { n with seen := b })
    (fun n => rfl) x hx (garr g) g.node_amount

theorem find_set_seen_self (g : graph) (s : String) (b : Bool) (hs : isStored g s) :
    graph_find_node (graph_node_set_seen g s b) s
      = (graph_find_node g s).map (fun n => { n with seen := b }) := by
  have hsome : (findNodeScan ((garr g).take g.node_amount) s).isSome = true :=
    (isStored_iff g s).mp hs
  unfold graph_find_node
  rw [garr_set_seen, amount_set_seen,
    take_update_first_of_found s (fun n => { n with seen := b }) (garr g) g.node_amount hsome]
  exact findNodeScan_update_self s (fun n => { n with seen := b }) (fun n => rfl) _

theorem find_set_seen_self_none (g : graph) (s : String) (b : Bool) (hs : ¬ isStored g s) :
    graph_find_node (graph_node_set_seen g s b) s = none := by
  have hnone : findNodeScan ((garr g).take g.node_amount) s = none := by
    have := (isStored_iff g s).not.mp hs
    cases hf : findNodeScan ((garr g).take g.node_amount) s with
    | none => rfl
    | some n => exact absurd (by simp [graph_find_node, hf]) this
  unfold graph_find_node
  rw [garr_set_seen, amount_set_seen]
  exact findNodeScan_take_update_self_none s _ (garr g) g.node_amount hnone

theorem is_seen_set_seen_self (g : graph) (s : String) (hs : isStored g s) :
    graph_node_is_seen (graph_node_set_seen g s true) s = true := by
  unfold graph_node_is_seen
  rw [find_set_seen_self g s true hs]
  have := (isStored_iff g s).mp hs
  cases hf : graph_find_node g s with
  | none => rw [hf] at this; simp at this
  | some n => simp

theorem is_seen_set_seen_ne (g : graph) (s : String) (b : Bool) (x : String) (hx : x ≠ s) :
    graph_node_is_seen (graph_node_set_seen g s b) x = graph_node_is_seen g x := by
  unfold graph_node_is_seen
  rw [find_set_seen_ne g s b x hx]

theorem is_seen_set_seen_mono (g : graph) (s x : String)
    (h : graph_node_is_seen g x = true) :
    graph_node_is_seen (graph_node_set_seen g s true) x = true := by
  by_cases hx : x = s
  · subst hx
    exact is_seen_set_seen_self g x (seen_isStored g x h)
  · rw [is_seen_set_seen_ne g s true x hx]; exact h

theorem is_seen_set_seen_inv (g : graph) (s x : String)
    (h : graph_node_is_seen (graph_node_set_seen g s true) x = true) :
    graph_node_is_seen g x = true ∨ x = s := by
  by_cases hx : x = s
  · exact Or.inr hx
  · rw [is_seen_set_seen_ne g s true x hx] at h
    exact Or.inl h

theorem neighbours_set_seen (g : graph) (s : String) (b : Bool) (x : String) :
    graph_neighbours (graph_node_set_seen g s b) x = graph_neighbours g x := by
  unfold graph_neighbours
  by_cases hx : x = s
  · subst hx
    by_cases hs : isStored g x
    · rw [find_set_seen_self g x b hs]
      cases graph_find_node g x <;> rfl
    · rw [find_set_seen_self_none g x b hs]
      have : graph_find_node g x = none := by
        have := (isStored_iff g x).not.mp hs
        cases hf : graph_find_node g x with
        | none => rfl
        | some n => exact absurd (by simp [hf]) this
      rw [this]
  · rw [find_set_seen_ne g s b x hx]

theorem sameShape_refl (g : graph) : sameShape g g := ⟨rfl, rfl⟩

theorem sameShape_trans {g h k : graph} (h₁ : sameShape g h) (h₂ : sameShape h k) :
    sameShape g k := ⟨h₁.1.trans h₂.1, h₁.2.trans h₂.2⟩

theorem sameShape_set_seen (g : graph) (s : String) (b : Bool) :
    sameShape g (graph_node_set_seen g s b) := by
  refine ⟨rfl, ?_⟩
  rw [garr_set_seen]
  exact (map_shape_update_first s (fun n => { n with seen := b }) (fun n => rfl) (garr g)).symm

theorem sameShape_reset (g : graph) : sameShape g (graph_reset_seen g) := by
  refine ⟨rfl, ?_⟩
  show (garr g).map (Option.map nodeShape)
      = (resetVals g.node_amount (garr g)).map (Option.map nodeShape)
  exact (resetVals_map_shape g.node_amount (garr g)).symm

theorem sameShape_length {g h : graph} (hsh : sameShape g h) :
    (garr g).length = (garr h).length := by
  have := congrArg List.length hsh.2
  simpa using this

theorem findNodeScan_shape (s : String) :
    ∀ (vs ws : List (Option node)),
      vs.map (Option.map nodeShape) = ws.map (Option.map nodeShape) →
      (findNodeScan vs s).map nodeShape = (findNodeScan ws s).map nodeShape := by
  intro vs
  induction vs with
  | nil => intro ws h; cases ws with
    | nil => rfl
    | cons w ws => simp at h
  | cons v rest ih =>
    intro ws h
    cases ws with
    | nil => simp at h
    | cons w ws =>
      simp only [List.map_cons, List.cons.injEq] at h
      cases v with
      | none =>
        cases w with
        | none => exact ih ws h.2
        | some m => simp at h
      | some n =>
        cases w with
        | none => simp at h
        | some m =>
          have hshape : nodeShape n = nodeShape m := by simpa using h.1
          have hname : n.name = m.name := congrArg Prod.fst hshape
          by_cases hn : n.name = s
          · simp [findNodeScan, hn, hname ▸ hn, hshape]
          · have hm : ¬ m.name = s := hname ▸ hn
            simpa [findNodeScan, hn, hm] using ih ws h.2

theorem find_shape {g h : graph} (hsh : sameShape g h) (x : String) :
    (graph_find_node g x).map nodeShape = (graph_find_node h x).map nodeShape := by
  unfold graph_find_node
  apply findNodeScan_shape
  rw [List.map_take, List.map_take, hsh.1, hsh.2]

theorem neighbours_shape {g h : graph} (hsh : sameShape g h) (x : String) :
    graph_neighbours h x = graph_neighbours g x := by
  have := find_shape hsh x
  unfold graph_neighbours
  cases hg : graph_find_node g x with
  | none =>
    rw [hg] at this
    cases hh : graph_find_node h x with
    | none => rfl
    | some m => rw [hh] at this; simp at this
  | some n =>
    rw [hg] at this
    cases hh : graph_find_node h x with
    | none => rw [hh] at this; simp at this
    | some m =>
      rw [hh] at this
      have h2 : nodeShape n = nodeShape m := by simpa using this
      exact (congrArg Prod.snd h2).symm

theorem isStored_shape {g h : graph} (hsh : sameShape g h) (x : String) :
    isStored h x ↔ isStored g x := by
  rw [isStored_iff, isStored_iff]
  have := find_shape hsh x
  cases hg : graph_find_node g x <;> cases hh : graph_find_node h x <;>
    rw [hg, hh] at this <;> simp_all



theorem storedNames_expr (g : graph) :
    storedNames g = (((garr g).map (Option.map nodeShape)).take g.node_amount).filterMap
      (fun w => w.map Prod.fst) := by
  unfold storedNames nodesList
  rw [List.map_filterMap, ← List.map_take, List.filterMap_map]
  apply List.filterMap_congr
  intro v _
  cases v with
  | none => rfl
  | some n => rfl

theorem storedNames_shape {g h : graph} (hsh : sameShape g h) :
    storedNames h = storedNames g := by
  rw [storedNames_expr, storedNames_expr, hsh.1, hsh.2]

theorem unseenCount_set_seen (g : graph) (s : String) (hs : isStored g s)
    (hu : graph_node_is_seen g s = false) :
    unseenCount (graph_node_set_seen g s true) + 1 = unseenCount g := by
  have hsome : (findNodeScan ((garr g).take g.node_amount) s).isSome = true :=
    (isStored_iff g s).mp hs
  obtain ⟨n₀, hn₀⟩ := Option.isSome_iff_exists.mp hsome
  have hseen : n₀.seen = false := by
    have : graph_node_is_seen g s = n₀.seen := by
      unfold graph_node_is_seen
      rw [show graph_find_node g s = some n₀ from hn₀]
    rw [← this, hu]
  unfold unseenCount nodesList
  rw [garr_set_seen, amount_set_seen,
    take_update_first_of_found s (fun n => { n with seen := true })
      (garr g) g.node_amount hsome]
  exact countP_unseen_update s _ n₀ hn₀ hseen

theorem unseenCount_le (g : graph) : unseenCount g ≤ g.node_amount := by
  unfold unseenCount nodesList
  calc (((garr g).take g.node_amount).filterMap id).countP (fun n => !n.seen)
      ≤ (((garr g).take g.node_amount).filterMap id).length := List.countP_le_length _
    _ ≤ ((garr g).take g.node_amount).length := List.length_filterMap_le _ _
    _ ≤ g.node_amount := by rw [List.length_take]; exact Nat.min_le_left _ _

theorem is_seen_of_allSeenFalse (g : graph) (h0 : allSeenFalse g) (x : String) :
    graph_node_is_seen g x = false := by
  unfold graph_node_is_seen
  cases hf : graph_find_node g x with
  | none => rfl
  | some n => exact h0 n (findNodeScan_mem x ((garr g).take g.node_amount) n hf).1

theorem neighbours_subset_stored (g : graph) (hwf : WF g) (x m : String)
    (hm : m ∈ graph_neighbours g x) : m ∈ storedNames g := by
  unfold graph_neighbours at hm
  cases hf : graph_find_node g x with
  | none => rw [hf] at hm; simp at hm
  | some n =>
    rw [hf] at hm
    exact hwf.2.2.2.2 n (findNodeScan_mem x ((garr g).take g.node_amount) n hf).1 m hm

theorem garr_reset (g : graph) :
    garr (graph_reset_seen g) = resetVals g.node_amount (garr g) := rfl

theorem amount_reset (g : graph) :
    (graph_reset_seen g).node_amount = g.node_amount := rfl

theorem allSeenFalse_reset (g : graph) : allSeenFalse (graph_reset_seen g) := by
  intro n hn
  unfold nodesList at hn
  rw [garr_reset, amount_reset, resetVals_take, List.filterMap_map] at hn
  obtain ⟨v, _, hv⟩ := List.mem_filterMap.mp hn
  cases v with
  | none => simp at hv
  | some m =>
    have hnm : ({ m with seen := false } : node) = n := by
      simpa [Function.comp] using hv
    rw [← hnm]

theorem nodes_some_of_WF (g : graph) (hwf : WF g) : g.nodes = some (garr g) := by
  cases hg : g.nodes with
  | none => rw [WF] at hwf; rw [hg] at hwf; simp at hwf
  | some a => unfold garr; rw [hg]; rfl

theorem shape_getD {g h : graph} (hsh : sameShape g h) (i : Nat) :
    ((garr g).getD i none).map nodeShape = ((garr h).getD i none).map nodeShape := by
  have h2 : ((garr g).map (Option.map nodeShape)).getD i none
      = ((garr h).map (Option.map nodeShape)).getD i none := by rw [hsh.2]
  rw [getD_map_shape, getD_map_shape] at h2
  exact h2

theorem reset_shape_eq (g h : graph) (hwf : WF g) (h0 : allSeenFalse g)
    (hsh : sameShape g h) : graph_reset_seen h = g := by
  have hlen : (garr g).length = (garr h).length := sameShape_length hsh
  have harr : resetVals h.node_amount (garr h) = garr g := by
    apply list_eq_of_getD
    · rw [resetVals_length, ← hlen]
    · intro i
      rw [resetVals_getD, ← hsh.1]
      have hgd := shape_getD hsh i
      by_cases hik : i < g.node_amount
      · rw [if_pos hik]
        obtain ⟨n, hn⟩ := Option.isSome_iff_exists.mp (hwf.2.1 i hik)
        have hnf : n.seen = false :=
          h0 n (mem_filterMap_take_of_getD (garr g) g.node_amount i n hik hn)
        rw [hn] at hgd
        cases hh : (garr h).getD i none with
        | none => rw [hh] at hgd; simp at hgd
        | some n' =>
          rw [hh] at hgd
          have hsp : nodeShape n = nodeShape n' := by simpa using hgd
          have hname : n.name = n'.name := congrArg Prod.fst hsp
          have hadj : n.adjacent_nodes = n'.adjacent_nodes := congrArg Prod.snd hsp
          rw [hn]
          simp only [Option.map_some']
          congr 1
          cases n with
          | mk nn ns na =>
            cases n' with
            | mk mn ms ma =>
              simp only at hname hadj hnf
              subst hname hadj hnf
              rfl
      · rw [if_neg hik]
        by_cases hil : i < (garr g).length
        · have hgnone : (garr g).getD i none = none :=
            hwf.2.2.1 i hil (Nat.le_of_not_lt hik)
          rw [hgnone] at hgd
          cases hh : (garr h).getD i none with
          | none => rw [hgnone]
          | some n' => rw [hh] at hgd; simp at hgd
        · rw [List.getD_eq_default, List.getD_eq_default]
          · omega
          · rw [← hlen]; omega
  have hn := nodes_some_of_WF g hwf
  have hamt : h.node_amount = g.node_amount := hsh.1.symm
  have hg : ({ nodes := some (garr g), node_amount := g.node_amount } : graph) = g := by
    rw [← hn]
  show ({ h with nodes := some (resetVals h.node_amount (garr h)) } : graph) = g
  rw [harr, hamt]
  exact hg


theorem process_error (b : String) :
    ∀ (ms : List String) (g' : graph) (q₀ : List String) (g₂ : graph),
      process_neighbours g' b q₀ ms = .error g₂ → b ∈ ms ∧ sameShape g' g₂ := by
  intro ms
  induction ms with
  | nil =>
    intro g' q₀ g₂ h
    simp [process_neighbours] at h
  | cons m rest ih =>
    intro g' q₀ g₂ h
    by_cases hb : nodes_are_equal m b = true
    · simp only [process_neighbours, hb, if_true] at h
      have hg : g' = g₂ := by
        injection h
      have hmb : m = b := by simpa [nodes_are_equal] using hb
      exact ⟨by rw [hmb]; exact List.mem_cons_self _ _, hg ▸ sameShape_refl g'⟩
    · by_cases hseen : graph_node_is_seen g' m = true
      · have h' : process_neighbours g' b q₀ rest = .error g₂ := by
          simpa [process_neighbours, hb, visit_node, hseen] using h
        have IH := ih g' q₀ g₂ h'
        exact ⟨List.mem_cons_of_mem m IH.1, IH.2⟩
      · have hseen' : graph_node_is_seen g' m = false := by
          simpa using hseen
        have h' : process_neighbours (graph_node_set_seen g' m true) b (q₀ ++ [m]) rest
            = .error g₂ := by
          simpa [process_neighbours, hb, visit_node, hseen'] using h
        have IH := ih (graph_node_set_seen g' m true) (q₀ ++ [m]) g₂ h'
        exact ⟨List.mem_cons_of_mem m IH.1,
          sameShape_trans (sameShape_set_seen g' m true) IH.2⟩

theorem process_ok (g : graph) (b : String) :
    ∀ (ms : List String) (g' : graph) (q₀ : List String) (g₂ : graph) (q₂ : List String),
      sameShape g g' → (∀ m ∈ ms, m ∈ storedNames g) →
      process_neighbours g' b q₀ ms = .ok (g₂, q₂) →
      ProcessOk g g' q₀ b ms g₂ q₂ := by
  intro ms
  induction ms with
  | nil =>
    intro g' q₀ g₂ q₂ hsh hms h
    have hp : g' = g₂ ∧ q₀ = q₂ := by
      simpa [process_neighbours, Prod.ext_iff] using h
    obtain ⟨rfl, rfl⟩ := hp
    exact
      { shape := hsh
        mono := fun x hx => hx
        newSeen := fun x hx => Or.inl hx
        qMem := fun x hx => Or.inl hx
        qSub := fun x hx => hx
        processed := fun m hm => absurd hm (List.not_mem_nil m)
        enqueued := fun m hm => absurd hm (List.not_mem_nil m)
        score := le_refl _ }
  | cons m rest ih =>
    intro g' q₀ g₂ q₂ hsh hms h
    have hmst : m ∈ storedNames g := hms m (List.mem_cons_self m rest)
    have hmsrest : ∀ x ∈ rest, x ∈ storedNames g :=
      fun x hx => hms x (List.mem_cons_of_mem m hx)
    by_cases hb : nodes_are_equal m b = true
    · simp only [process_neighbours, hb, if_true] at h
      exact Except.noConfusion h
    · have hbne : m ≠ b := by
        intro hmb
        exact hb (by simp [nodes_are_equal, hmb])
      by_cases hseen : graph_node_is_seen g' m = true
      · have h' : process_neighbours g' b q₀ rest = .ok (g₂, q₂) := by
          simpa [process_neighbours, hb, visit_node, hseen] using h
        have IH := ih g' q₀ g₂ q₂ hsh hmsrest h'
        exact
          { shape := IH.shape
            mono := IH.mono
            newSeen := fun x hx =>
              (IH.newSeen x hx).imp id (List.mem_cons_of_mem m)
            qMem := fun x hx =>
              (IH.qMem x hx).imp id (List.mem_cons_of_mem m)
            qSub := IH.qSub
            processed := by
              intro m' hm'
              rcases List.mem_cons.mp hm' with rfl | hm'
              · exact ⟨hbne, IH.mono m' hseen⟩
              · exact IH.processed m' hm'
            enqueued := by
              intro m' hm' hm'unseen
              rcases List.mem_cons.mp hm' with rfl | hm'
              · rw [hseen] at hm'unseen; exact absurd hm'unseen (by simp)
              · exact IH.enqueued m' hm' hm'unseen
            score := IH.score }
      · have hseen' : graph_node_is_seen g' m = false := by simpa using hseen
        have hmst' : isStored g' m := (isStored_shape hsh m).mpr hmst
        have h' : process_neighbours (graph_node_set_seen g' m true) b (q₀ ++ [m]) rest
            = .ok (g₂, q₂) := by
          simpa [process_neighbours, hb, visit_node, hseen'] using h
        have hsh₁ : sameShape g (graph_node_set_seen g' m true) :=
          sameShape_trans hsh (sameShape_set_seen g' m true)
        have IH := ih (graph_node_set_seen g' m true) (q₀ ++ [m]) g₂ q₂ hsh₁ hmsrest h'
        have hm_seen₁ : graph_node_is_seen (graph_node_set_seen g' m true) m = true :=
          is_seen_set_seen_self g' m hmst'
        have hcount : unseenCount (graph_node_set_seen g' m true) + 1 = unseenCount g' :=
          unseenCount_set_seen g' m hmst' hseen'
        exact
          { shape := IH.shape
            mono := fun x hx => IH.mono x (is_seen_set_seen_mono g' m x hx)
            newSeen := by
              intro x hx
              rcases IH.newSeen x hx with h₁ | h₁
              · rcases is_seen_set_seen_inv g' m x h₁ with h₂ | rfl
                · exact Or.inl h₂
                · exact Or.inr (List.mem_cons_self x rest)
              · exact Or.inr (List.mem_cons_of_mem m h₁)
            qMem := by
              intro x hx
              rcases IH.qMem x hx with h₁ | h₁
              · rcases List.mem_append.mp h₁ with h₂ | h₂
                · exact Or.inl h₂
                · have : x = m := by simpa using h₂
                  exact Or.inr (this ▸ List.mem_cons_self x rest)
              · exact Or.inr (List.mem_cons_of_mem m h₁)
            qSub := fun x hx => IH.qSub x (List.mem_append_left _ hx)
            processed := by
              intro m' hm'
              rcases List.mem_cons.mp hm' with rfl | hm'
              · exact ⟨hbne, IH.mono m' hm_seen₁⟩
              · exact IH.processed m' hm'
            enqueued := by
              intro m' hm' hm'unseen
              rcases List.mem_cons.mp hm' with rfl | hm'
              · exact IH.qSub m' (List.mem_append_right _ (List.mem_singleton.mpr rfl))
              · by_cases hmm : m' = m
                · exact hmm ▸ IH.qSub m (List.mem_append_right _ (List.mem_singleton.mpr rfl))
                · have : graph_node_is_seen (graph_node_set_seen g' m true) m' = false := by
                    rw [is_seen_set_seen_ne g' m true m' hmm]
                    exact hm'unseen
                  exact IH.enqueued m' hm' this
            score := by
              have := IH.score
              simp only [List.length_append, List.length_singleton] at this
              omega }



theorem find_path_aux_isSome (g : graph) (b : String) (hwf : WF g) :
    ∀ (fuel : Nat), ∀ (g' : graph) (q : List String), sameShape g g' →
      2 * unseenCount g' + q.length < fuel →
      (find_path_aux fuel g' b q).isSome = true := by
  intro fuel
  induction fuel with
  | zero => intro g' q _ hm; omega
  | succ fuel ih =>
    intro g' q hsh hm
    cases q with
    | nil => simp [find_path_aux]
    | cons n q' =>
      have hms : ∀ m ∈ (graph_neighbours g' n).reverse, m ∈ storedNames g := by
        intro m hmm
        rw [List.mem_reverse, neighbours_shape hsh] at hmm
        exact neighbours_subset_stored g hwf n m hmm
      cases hp : process_neighbours g' b q' ((graph_neighbours g' n).reverse) with
      | error g₂ => simp [find_path_aux, hp]
      | ok p =>
        obtain ⟨g₂, q₂⟩ := p
        have P := process_ok g b _ g' q' g₂ q₂ hsh hms hp
        have hm₂ : 2 * unseenCount g₂ + q₂.length < fuel := by
          have hs := P.score
          simp only [List.length_cons] at hm
          omega
        have := ih g₂ q₂ P.shape hm₂
        simpa [find_path_aux, hp] using this

theorem find_path_aux_result_reset (g : graph) (b : String) (hwf : WF g) :
    ∀ (fuel : Nat), ∀ (g' : graph) (q : List String) (r : Bool) (gout : graph),
      sameShape g g' → find_path_aux fuel g' b q = some (r, gout) →
      ∃ h, sameShape g h ∧ gout = graph_reset_seen h := by
  intro fuel
  induction fuel with
  | zero => intro g' q r gout _ h; simp [find_path_aux] at h
  | succ fuel ih =>
    intro g' q r gout hsh h
    cases q with
    | nil =>
      have : gout = graph_reset_seen g' := by
        simp only [find_path_aux, Option.some.injEq, Prod.mk.injEq] at h
        exact h.2.symm
      exact ⟨g', hsh, this⟩
    | cons n q' =>
      have hms : ∀ m ∈ (graph_neighbours g' n).reverse, m ∈ storedNames g := by
        intro m hmm
        rw [List.mem_reverse, neighbours_shape hsh] at hmm
        exact neighbours_subset_stored g hwf n m hmm
      cases hp : process_neighbours g' b q' ((graph_neighbours g' n).reverse) with
      | error g₂ =>
        have hsh₂ : sameShape g g₂ :=
          sameShape_trans hsh (process_error b _ g' q' g₂ hp).2
        have : gout = graph_reset_seen g₂ := by
          simp only [find_path_aux, hp, Option.some.injEq, Prod.mk.injEq] at h
          exact h.2.symm
        exact ⟨g₂, hsh₂, this⟩
      | ok p =>
        obtain ⟨g₂, q₂⟩ := p
        have P := process_ok g b _ g' q' g₂ q₂ hsh hms hp
        have h' : find_path_aux fuel g₂ b q₂ = some (r, gout) := by
          simpa [find_path_aux, hp] using h
        exact ih g₂ q₂ r gout P.shape h'

theorem find_path_aux_noIncoming (g : graph) (a : String) (hwf : WF g)
    (hni : noIncoming g a) :
    ∀ (fuel : Nat), ∀ (g' : graph) (q : List String) (r : Bool) (gout : graph),
      sameShape g g' → find_path_aux fuel g' a q = some (r, gout) → r = false := by
  intro fuel
  induction fuel with
  | zero => intro g' q r gout _ h; simp [find_path_aux] at h
  | succ fuel ih =>
    intro g' q r gout hsh h
    cases q with
    | nil =>
      simp only [find_path_aux, Option.some.injEq, Prod.mk.injEq] at h
      exact h.1.symm
    | cons n q' =>
      have hms : ∀ m ∈ (graph_neighbours g' n).reverse, m ∈ storedNames g := by
        intro m hmm
        rw [List.mem_reverse, neighbours_shape hsh] at hmm
        exact neighbours_subset_stored g hwf n m hmm
      cases hp : process_neighbours g' a q' ((graph_neighbours g' n).reverse) with
      | error g₂ =>
        exfalso
        have hmem : a ∈ graph_neighbours g n := by
          have := (process_error a _ g' q' g₂ hp).1
          rw [List.mem_reverse, neighbours_shape hsh] at this
          exact this
        unfold graph_neighbours at hmem
        cases hf : graph_find_node g n with
        | none => rw [hf] at hmem; simp at hmem
        | some nd =>
          rw [hf] at hmem
          exact hni nd (findNodeScan_mem n ((garr g).take g.node_amount) nd hf).1 hmem
      | ok p =>
        obtain ⟨g₂, q₂⟩ := p
        have P := process_ok g a _ g' q' g₂ q₂ hsh hms hp
        have h' : find_path_aux fuel g₂ a q₂ = some (r, gout) := by
          simpa [find_path_aux, hp] using h
        exact ih g₂ q₂ r gout P.shape h'

theorem find_path_aux_correct (g : graph) (a b : String) (hwf : WF g) (hab : a ≠ b) :
    ∀ (fuel : Nat), ∀ (g' : graph) (q : List String),
      BfsInv g a b g' q → 2 * unseenCount g' + q.length < fuel →
      ∃ r gout, find_path_aux fuel g' b q = some (r, gout) ∧ (r = true ↔ Reach g a b) := by
  intro fuel
  induction fuel with
  | zero => intro g' q _ hm; omega
  | succ fuel ih =>
    intro g' q inv hm
    cases q with
    | nil =>
      refine ⟨false, graph_reset_seen g', by simp [find_path_aux], ?_⟩
      simp only [Bool.false_eq_true, false_iff]
      intro hre
      have hall : ∀ y, Reach g a y → graph_node_is_seen g' y = true ∧ y ≠ b := by
        intro y hy
        induction hy with
        | refl => exact ⟨inv.ha_seen, hab⟩
        | @tail x y hxy hedge ih₂ =>
          obtain ⟨hsx, _⟩ := ih₂
          have hc := inv.hclosed x hsx (List.not_mem_nil x) y hedge
          exact ⟨hc.2, hc.1⟩
      exact (hall b hre).2 rfl
    | cons n q' =>
      have hms : ∀ m ∈ (graph_neighbours g' n).reverse, m ∈ storedNames g := by
        intro m hmm
        rw [List.mem_reverse, neighbours_shape inv.shape] at hmm
        exact neighbours_subset_stored g hwf n m hmm
      have hn_seen : graph_node_is_seen g' n = true :=
        (inv.hq n (List.mem_cons_self n q')).1
      have hreach_n : Reach g a n := (inv.hseen n hn_seen).1
      cases hp : process_neighbours g' b q' ((graph_neighbours g' n).reverse) with
      | error g₂ =>
        have hbmem : b ∈ graph_neighbours g n := by
          have := (process_error b _ g' q' g₂ hp).1
          rw [List.mem_reverse, neighbours_shape inv.shape] at this
          exact this
        have hreach : Reach g a b := Relation.ReflTransGen.tail hreach_n hbmem
        exact ⟨true, graph_reset_seen g₂, by simp [find_path_aux, hp], by simp [hreach]⟩
      | ok p =>
        obtain ⟨g₂, q₂⟩ := p
        have P := process_ok g b _ g' q' g₂ q₂ inv.shape hms hp
        have inv₂ : BfsInv g a b g₂ q₂ :=
          { shape := P.shape
            hq := by
              intro x hx
              rcases P.qMem x hx with h₁ | h₁
              · have hold := inv.hq x (List.mem_cons_of_mem n h₁)
                exact ⟨P.mono x hold.1, hold.2⟩
              · exact ⟨(P.processed x h₁).2, hms x h₁⟩
            hseen := by
              intro x hx
              rcases P.newSeen x hx with h₁ | h₁
              · exact inv.hseen x h₁
              · have hxn : x ∈ graph_neighbours g n := by
                  rw [List.mem_reverse, neighbours_shape inv.shape] at h₁
                  exact h₁
                exact ⟨Relation.ReflTransGen.tail hreach_n hxn, (P.processed x h₁).1⟩
            hclosed := by
              intro x hx hxq
              by_cases hxn : x = n
              · subst hxn
                intro m hmn
                have hmc : m ∈ (graph_neighbours g' x).reverse := by
                  rw [List.mem_reverse, neighbours_shape inv.shape]
                  exact hmn
                exact (P.processed m hmc).imp id (fun h => h)
              · by_cases hx' : graph_node_is_seen g' x = true
                · have hxq' : x ∉ q' := fun hq' => hxq (P.qSub x hq')
                  have hxnq : x ∉ n :: q' := by
                    intro hmem
                    rcases List.mem_cons.mp hmem with h₂ | h₂
                    · exact hxn h₂
                    · exact hxq' h₂
                  have hold := inv.hclosed x hx' hxnq
                  intro m hmn
                  exact ⟨(hold m hmn).1, P.mono m (hold m hmn).2⟩
                · exfalso
                  have hx'' : graph_node_is_seen g' x = false := by simpa using hx'
                  rcases P.newSeen x hx with h₁ | h₁
                  · rw [hx''] at h₁; exact absurd h₁ (by simp)
                  · exact hxq (P.enqueued x h₁ hx'')
            ha_seen := P.mono a inv.ha_seen }
        have hm₂ : 2 * unseenCount g₂ + q₂.length < fuel := by
          have hs := P.score
          simp only [List.length_cons] at hm
          omega
        obtain ⟨r, gout, hrun, hiff⟩ := ih g₂ q₂ inv₂ hm₂
        refine ⟨r, gout, ?_, hiff⟩
        simpa [find_path_aux, hp] using hrun



theorem BfsInv_init (g : graph) (a b : String) (h0 : allSeenFalse g)
    (ha : isStored g a) (hab : a ≠ b) :
    BfsInv g a b (graph_node_set_seen g a true) [a] := by
  have hseen_only : ∀ x, graph_node_is_seen (graph_node_set_seen g a true) x = true → x = a := by
    intro x hx
    rcases is_seen_set_seen_inv g a x hx with h₁ | h₁
    · rw [is_seen_of_allSeenFalse g h0 x] at h₁
      exact absurd h₁ (by simp)
    · exact h₁
  refine
    { shape := sameShape_set_seen g a true
      hq := ?_
      hseen := ?_
      hclosed := ?_
      ha_seen := is_seen_set_seen_self g a ha }
  · intro x hx
    have hxa : x = a := by simpa using hx
    subst hxa
    exact ⟨is_seen_set_seen_self g x ha, ha⟩
  · intro x hx
    have hxa := hseen_only x hx
    subst hxa
    exact ⟨Relation.ReflTransGen.refl, hab⟩
  · intro x hx hxq
    have hxa := hseen_only x hx
    subst hxa
    exact absurd (List.mem_singleton.mpr rfl) hxq

theorem find_path_correct (g : graph) (a b : String) (hwf : WF g) (h0 : allSeenFalse g)
    (ha : isStored g a) (hb : isStored g b) (hab : a ≠ b) :
    ((find_path g a b).map Prod.fst = some true) ↔ Reach g a b := by
  have hinv := BfsInv_init g a b h0 ha hab
  have hmeas : 2 * unseenCount (graph_node_set_seen g a true) + ([a] : List String).length
      < 2 * (graph_node_set_seen g a true).node_amount + 2 := by
    have := unseenCount_le (graph_node_set_seen g a true)
    simp only [List.length_singleton]
    omega
  obtain ⟨r, gout, hrun, hiff⟩ :=
    find_path_aux_correct g a b hwf hab _ (graph_node_set_seen g a true) [a] hinv hmeas
  have hfp : find_path g a b = some (r, gout) := hrun
  rw [hfp]
  simp only [Option.map_some', Option.some.injEq]
  exact hiff

theorem find_path_terminates (g : graph) (src dest : String) (hwf : WF g) :
    ∃ p, find_path g src dest = some p := by
  have hmeas : 2 * unseenCount (graph_node_set_seen g src true) + ([src] : List String).length
      < 2 * (graph_node_set_seen g src true).node_amount + 2 := by
    have := unseenCount_le (graph_node_set_seen g src true)
    simp only [List.length_singleton]
    omega
  have h := find_path_aux_isSome g dest hwf _ (graph_node_set_seen g src true) [src]
    (sameShape_set_seen g src true) hmeas
  exact Option.isSome_iff_exists.mp h

theorem find_path_idempotent (g : graph) (a b : String) (hwf : WF g)
    (h0 : allSeenFalse g) :
    ∃ r g', find_path g a b = some (r, g') ∧ allSeenFalse g' ∧ g' = g ∧
      find_path g' a b = some (r, g') := by
  obtain ⟨⟨r, gout⟩, hrun⟩ := find_path_terminates g a b hwf
  have hrun' : find_path_aux (2 * (graph_node_set_seen g a true).node_amount + 2)
      (graph_node_set_seen g a true) b [a] = some (r, gout) := hrun
  obtain ⟨h, hsh, hgout⟩ := find_path_aux_result_reset g b hwf _
    (graph_node_set_seen g a true) [a] r gout (sameShape_set_seen g a true) hrun'
  have hg : gout = g := by rw [hgout]; exact reset_shape_eq g h hwf h0 hsh
  refine ⟨r, gout, hrun, ?_, hg, ?_⟩
  · rw [hgout]; exact allSeenFalse_reset h
  · conv_lhs => rw [hg]
    exact hrun

theorem find_path_self_no_incoming (g : graph) (a : String) (hwf : WF g)
    (ha : isStored g a) (hni : noIncoming g a) :
    (find_path g a a).map Prod.fst = some false := by
  obtain ⟨⟨r, gout⟩, hrun⟩ := find_path_terminates g a a hwf
  have hrun' : find_path_aux (2 * (graph_node_set_seen g a true).node_amount + 2)
      (graph_node_set_seen g a true) a [a] = some (r, gout) := hrun
  have hr : r = false := find_path_aux_noIncoming g a hwf hni _
    (graph_node_set_seen g a true) [a] r gout (sameShape_set_seen g a true) hrun'
  rw [hrun, hr]
  rfl



-- ===== lemmas for the loader and the remaining container operations =====

theorem getD_map_opt {α : Type} (f : node → α) :
    ∀ (vs : List (Option node)) (i : Nat),
      (vs.map (Option.map f)).getD i none = (vs.getD i none).map f := by
  intro vs
  induction vs with
  | nil => intro i; simp
  | cons v rest ih =>
    intro i
    cases i with
    | zero => simp
    | succ i => simpa using ih i

theorem map_name_filterMap_take (k : Nat) :
    ∀ (vs ws : List (Option node)),
      vs.map (Option.map node.name) = ws.map (Option.map node.name) →
      ((vs.take k).filterMap id).map node.name = ((ws.take k).filterMap id).map node.name := by
  intro vs
  induction vs generalizing k with
  | nil =>
    intro ws h
    cases ws with
    | nil => rfl
    | cons w ws => simp at h
  | cons v rest ih =>
    intro ws h
    cases ws with
    | nil => simp at h
    | cons w ws =>
      simp only [List.map_cons, List.cons.injEq] at h
      cases k with
      | zero => rfl
      | succ k =>
        cases v with
        | none =>
          cases w with
          | none => simpa using ih k ws h.2
          | some m => simp at h
        | some n =>
          cases w with
          | none => simp at h
          | some m =>
            have hname : n.name = m.name := by simpa using h.1
            simpa [hname] using ih k ws h.2

theorem mem_filterMap_take_update (s : String) (f : node → node) :
    ∀ (vs : List (Option node)) (k : Nat) (n' : node),
      n' ∈ ((update_first vs s f).take k).filterMap id →
      n' ∈ (vs.take k).filterMap id ∨ ∃ n ∈ (vs.take k).filterMap id, n' = f n := by
  intro vs
  induction vs with
  | nil => intro k n' h; simp [update_first] at h
  | cons v rest ih =>
    intro k n' h
    cases k with
    | zero => simp at h
    | succ k =>
      cases v with
      | none =>
        simp only [update_first, List.take_succ_cons, List.filterMap_cons] at h ⊢
        rcases ih k n' h with h₁ | ⟨n, hn, hfn⟩
        · exact Or.inl h₁
        · exact Or.inr ⟨n, hn, hfn⟩
      | some m =>
        by_cases hm : m.name = s
        · simp only [update_first, hm, if_pos rfl, List.take_succ_cons,
            List.filterMap_cons] at h ⊢
          rcases List.mem_cons.mp h with rfl | h₁
          · exact Or.inr ⟨m, List.mem_cons_self m _, rfl⟩
          · exact Or.inl (List.mem_cons_of_mem m h₁)
        · simp only [update_first, hm, if_false, List.take_succ_cons,
            List.filterMap_cons] at h ⊢
          rcases List.mem_cons.mp h with rfl | h₁
          · exact Or.inl (List.mem_cons_self n' _)
          · rcases ih k n' h₁ with h₂ | ⟨n, hn, hfn⟩
            · exact Or.inl (List.mem_cons_of_mem m h₂)
            · exact Or.inr ⟨n, List.mem_cons_of_mem m hn, hfn⟩

theorem garr_insert_edge (g : graph) (s d : String) :
    garr (graph_insert_edge g s d)
      = update_first (garr g) s (fun n => { n with adjacent_nodes := d :: n.adjacent_nodes }) :=
  rfl

theorem amount_insert_edge (g : graph) (s d : String) :
    (graph_insert_edge g s d).node_amount = g.node_amount := rfl

theorem find_insert_edge_ne (g : graph) (s d x : String) (hx : x ≠ s) :
    graph_find_node (graph_insert_edge g s d) x = graph_find_node g x := by
  unfold graph_find_node
  rw [garr_insert_edge, amount_insert_edge]
  exact findNodeScan_take_update_ne s
    (fun n => { n with adjacent_nodes := d :: n.adjacent_nodes })
    (fun n => rfl) x hx (garr g) g.node_amount

theorem neighbours_insert_edge_self (g : graph) (s d : String) (hs : isStored g s) :
    graph_neighbours (graph_insert_edge g s d) s = d :: graph_neighbours g s := by
  have hsome : (findNodeScan ((garr g).take g.node_amount) s).isSome = true :=
    (isStored_iff g s).mp hs
  unfold graph_neighbours graph_find_node
  rw [garr_insert_edge, amount_insert_edge,
    take_update_first_of_found s (fun n => { n with adjacent_nodes := d :: n.adjacent_nodes })
      (garr g) g.node_amount hsome,
    findNodeScan_update_self s (fun n => { n with adjacent_nodes := d :: n.adjacent_nodes })
      (fun n => rfl) _]
  obtain ⟨n₀, hn₀⟩ := Option.isSome_iff_exists.mp hsome
  rw [hn₀]
  rfl

theorem neighbours_insert_edge_ne (g : graph) (s d x : String) (hx : x ≠ s) :
    graph_neighbours (graph_insert_edge g s d) x = graph_neighbours g x := by
  unfold graph_neighbours
  rw [find_insert_edge_ne g s d x hx]

theorem storedNames_insert_edge (g : graph) (s d : String) :
    storedNames (graph_insert_edge g s d) = storedNames g := by
  unfold storedNames nodesList
  rw [garr_insert_edge, amount_insert_edge]
  exact map_name_filterMap_take g.node_amount _ (garr g)
    (map_name_update_first s (fun n => { n with adjacent_nodes := d :: n.adjacent_nodes })
      (fun n => rfl) (garr g))

theorem WF_insert_edge (g : graph) (s d : String) (hwf : WF g) (hd : isStored g d) :
    WF (graph_insert_edge g s d) := by
  have hname := map_name_update_first s
    (fun n => { n with adjacent_nodes := d :: n.adjacent_nodes }) (fun n => rfl) (garr g)
  have hgetD : ∀ i, ((garr (graph_insert_edge g s d)).getD i none).map node.name
      = ((garr g).getD i none).map node.name := by
    intro i
    rw [garr_insert_edge]
    have h1 := getD_map_opt node.name (update_first (garr g) s
      (fun n => { n with adjacent_nodes := d :: n.adjacent_nodes })) i
    have h2 := getD_map_opt node.name (garr g) i
    rw [← h1, ← h2, hname]
  refine ⟨rfl, ?_, ?_, ?_, ?_⟩
  · intro i hi
    rw [amount_insert_edge] at hi
    have := hwf.2.1 i hi
    have hg := hgetD i
    cases h1 : (garr (graph_insert_edge g s d)).getD i none with
    | none =>
      rw [h1] at hg
      cases h2 : (garr g).getD i none with
      | none => rw [h2] at this; simp at this
      | some n => rw [h2] at hg; simp at hg
    | some n => rfl
  · intro i hi hge
    rw [garr_insert_edge, update_first_length] at hi
    rw [amount_insert_edge] at hge
    have hnone := hwf.2.2.1 i hi hge
    have hg := hgetD i
    rw [hnone] at hg
    cases h1 : (garr (graph_insert_edge g s d)).getD i none with
    | none => rfl
    | some n => rw [h1] at hg; simp at hg
  · rw [show storedNames (graph_insert_edge g s d) = storedNames g from
      storedNames_insert_edge g s d]
    exact hwf.2.2.2.1
  · intro n' hn' m hm
    rw [show storedNames (graph_insert_edge g s d) = storedNames g from
      storedNames_insert_edge g s d]
    unfold nodesList at hn'
    rw [garr_insert_edge, amount_insert_edge] at hn'
    rcases mem_filterMap_take_update s _ (garr g) g.node_amount n' hn' with h₁ | ⟨n, hn, rfl⟩
    · exact hwf.2.2.2.2 n' h₁ m hm
    · simp only at hm
      rcases List.mem_cons.mp hm with rfl | hm'
      · exact hd
      · exact hwf.2.2.2.2 n hn m hm'

theorem capacity_graph_empty (n : Nat) : graph_capacity (graph_empty n) = n := by
  simp [graph_capacity, graph_empty, garr, array_1d_create, array_1d_high]

theorem capacity_insert_node (g : graph) (s : String) :
    graph_capacity (graph_insert_node g s) = graph_capacity g := by
  simp [graph_capacity, graph_insert_node, garr, array_1d_high, array_1d_set_value]

theorem capacity_insert_edge (g : graph) (s d : String) :
    graph_capacity (graph_insert_edge g s d) = graph_capacity g := by
  unfold graph_capacity array_1d_high
  rw [garr_insert_edge, update_first_length]

theorem capacity_create_graph (es : List graph_edges) :
    ∀ g : graph, graph_capacity (create_graph g es) = graph_capacity g := by
  induction es with
  | nil => intro g; rfl
  | cons e rest ih =>
    intro g
    obtain ⟨s, d⟩ := e
    show graph_capacity (create_graph _ rest) = graph_capacity g
    rw [ih, capacity_insert_edge]
    split_ifs <;> simp [capacity_insert_node]

theorem validate_true_alnum (s d : String) (h : validate_node_names s d = true) :
    s.toList.all isalnum = true ∧ d.toList.all isalnum = true := by
  unfold validate_node_names at h
  split_ifs at h with h1 h2 h3 h4
  · exact ⟨by simpa using h1, by simpa using h2⟩

theorem add_edges_error_of_bad (bad : String)
    (hproc : strFront bad ≠ '#' ∧ strFront bad ≠ '\n')
    (hbad : (sscanf2 bad).1.toList.all isalnum = false ∨
            (sscanf2 bad).2.toList.all isalnum = false) :
    ∀ (ls : List String) (acc : List graph_edges), bad ∈ ls →
      add_edges_to_list acc ls = .error () := by
  intro ls
  induction ls with
  | nil => intro acc h; simp at h
  | cons l rest ih =>
    intro acc hmem
    rcases List.mem_cons.mp hmem with heq | hmem
    · subst heq
      have hval : validate_node_names (sscanf2 bad).1 (sscanf2 bad).2 = false := by
        cases hv : validate_node_names (sscanf2 bad).1 (sscanf2 bad).2 with
        | false => rfl
        | true =>
          obtain ⟨h1, h2⟩ := validate_true_alnum _ _ hv
          rcases hbad with h | h
          · rw [h1] at h; exact absurd h (by simp)
          · rw [h2] at h; exact absurd h (by simp)
      simp [add_edges_to_list, hproc, hval]
    · by_cases hpl : strFront l ≠ '#' ∧ strFront l ≠ '\n'
      · by_cases hv : validate_node_names (sscanf2 l).1 (sscanf2 l).2 = true
        · simpa [add_edges_to_list, hpl, hv] using ih _ hmem
        · have hv' : validate_node_names (sscanf2 l).1 (sscanf2 l).2 = false := by
            simpa using hv
          simp [add_edges_to_list, hpl, hv']
      · simpa [add_edges_to_list, hpl] using ih _ hmem


theorem insert_edges_neighbours (es : List graph_edges) (n : String) :
    ∀ g : graph, WF g → isStored g n →
      (∀ e ∈ es, isStored g e.1 ∧ isStored g e.2) →
      graph_neighbours (insert_edges g es) n =
        ((es.filter (fun e => e.1 == n)).map Prod.snd).reverse ++ graph_neighbours g n := by
  induction es with
  | nil => intro g _ _ _; simp [insert_edges]
  | cons e rest ih =>
    intro g hwf hn hes
    obtain ⟨s, d⟩ := e
    have h1 := hes (s, d) (List.mem_cons_self _ _)
    have hwf' := WF_insert_edge g s d hwf h1.2
    have hn' : isStored (graph_insert_edge g s d) n := by
      unfold isStored
      rw [storedNames_insert_edge]
      exact hn
    have hes' : ∀ e ∈ rest, isStored (graph_insert_edge g s d) e.1 ∧
        isStored (graph_insert_edge g s d) e.2 := by
      intro e he
      have h2 := hes e (List.mem_cons_of_mem _ he)
      unfold isStored
      rw [storedNames_insert_edge]
      exact h2
    have IH := ih (graph_insert_edge g s d) hwf' hn' hes'
    show graph_neighbours (insert_edges (graph_insert_edge g s d) rest) n = _
    rw [IH]
    by_cases hsn : s = n
    · subst hsn
      rw [neighbours_insert_edge_self g s d h1.1]
      simp [List.filter_cons, List.append_assoc]
    · rw [neighbours_insert_edge_ne g s d n (Ne.symm hsn)]
      have hb : ((s, d).1 == n) = false := by
        simp only [beq_eq_false_iff_ne]
        exact hsn
      simp [List.filter_cons, hb]

theorem loader_capacity (lines rest : List String) (E : Nat) (es : List graph_edges)
    (hsplit : get_edges_split lines = some (E, rest)) (hE : 0 < E)
    (hadd : add_edges_to_list [] rest = .ok es) :
    (prepare_graph lines).map graph_capacity = .ok (4 * E) := by
  have hne : get_number_of_edges lines = E * 2 := by
    unfold get_number_of_edges
    rw [hsplit]
    simp [hE]
  unfold prepare_graph info_from_file
  rw [hne, hsplit]
  have h2 : ¬ (E * 2 = 0) := by omega
  rw [if_neg h2]
  simp only [Option.map_some', Option.getD_some]
  rw [hadd]
  show Except.map graph_capacity (.ok (create_graph (graph_empty (E * 2 * 2)) es)) = _
  rw [Except.map]
  simp only [capacity_create_graph, capacity_graph_empty]
  congr 1
  omega

theorem loader_rejects (lines rest : List String) (E : Nat) (bad : String)
    (hsplit : get_edges_split lines = some (E, rest)) (hE : 0 < E)
    (hmem : bad ∈ rest) (hproc : strFront bad ≠ '#' ∧ strFront bad ≠ '\n')
    (hbad : (sscanf2 bad).1.toList.all isalnum = false ∨
            (sscanf2 bad).2.toList.all isalnum = false) :
    prepare_graph lines = .error () := by
  have hne : get_number_of_edges lines = E * 2 := by
    unfold get_number_of_edges
    rw [hsplit]
    simp [hE]
  unfold prepare_graph info_from_file
  rw [hne, hsplit]
  have h2 : ¬ (E * 2 = 0) := by omega
  rw [if_neg h2]
  simp only [Option.map_some', Option.getD_some]
  rw [add_edges_error_of_bad bad hproc hbad rest [] hmem]

theorem graph_choose_node_spec (g : graph) (hwf : WF g) :
    (g.node_amount = 0 → graph_choose_node g = none) ∧
    (0 < g.node_amount → ∃ i n, array_1d_has_value (garr g) i = true ∧
      (∀ j < i, array_1d_has_value (garr g) j = false) ∧
      array_1d_inspect_value (garr g) i = some n ∧ graph_choose_node g = some n) := by
  constructor
  · intro h0
    unfold graph_choose_node
    rw [h0]
    simp
  · intro hpos
    obtain ⟨n, hn⟩ := Option.isSome_iff_exists.mp (hwf.2.1 0 hpos)
    refine ⟨0, n, ?_, ?_, ?_, ?_⟩
    · unfold array_1d_has_value
      rw [hn]
      rfl
    · intro j hj
      omega
    · exact hn
    · unfold graph_choose_node
      rw [if_pos hpos]
      cases hg : garr g with
      | nil => rw [hg] at hn; simp at hn
      | cons v rest =>
        rw [hg] at hn
        have hv : v = some n := by simpa using hn
        rw [hv]
        rfl



/-- C1: for every well-formed graph in its resting state (all seen flags
false) and every pair of distinct stored nodes `a`, `b`, `find_path g a b`
returns true iff a directed walk from `a` to `b` exists in the recorded
edge set (soundness and completeness of the BFS against the reference
path-existence check `Reach`). -/
theorem claim1_find_path_iff_reachable (g : graph) (a b : String) (hwf : WF g)
    (h0 : allSeenFalse g) (ha : isStored g a) (hb : isStored g b) (hab : a ≠ b) :
    ((find_path g a b).map Prod.fst = some true) ↔ Reach g a b :=
  find_path_correct g a b hwf h0 ha hb hab

theorem claim1_witness :
    WF sampleGraph ∧ allSeenFalse sampleGraph ∧ isStored sampleGraph "A" ∧
      isStored sampleGraph "C" ∧ "A" ≠ "C" ∧
      (((find_path sampleGraph "A" "C").map Prod.fst = some true) ↔
        Reach sampleGraph "A" "C") :=
  ⟨by decide, by decide, by decide, by decide, by decide,
    claim1_find_path_iff_reachable sampleGraph "A" "C" (by decide) (by decide) (by decide)
      (by decide) (by decide)⟩

/-- C2: on a well-formed graph whose seen flags are all false, every call
to `find_path` terminates with a result, leaves every node's seen flag
false again (indeed leaves the graph unchanged), and calling it twice in
a row with the same arguments yields the same result. -/
theorem claim2_find_path_idempotent (g : graph) (a b : String) (hwf : WF g)
    (h0 : allSeenFalse g) :
    ∃ r g', find_path g a b = some (r, g') ∧ allSeenFalse g' ∧ g' = g ∧
      find_path g' a b = some (r, g') :=
  find_path_idempotent g a b hwf h0

theorem claim2_witness :
    WF sampleGraph ∧ allSeenFalse sampleGraph ∧
      (∃ r g', find_path sampleGraph "A" "C" = some (r, g') ∧ allSeenFalse g' ∧
        g' = sampleGraph ∧ find_path g' "A" "C" = some (r, g')) :=
  ⟨by decide, by decide,
    claim2_find_path_idempotent sampleGraph "A" "C" (by decide) (by decide)⟩

/-- C3 (code bug): `graph_is_empty` compares the node-array pointer with
NULL (`g->nodes == 0`) instead of the node count, so on a freshly created
graph — which has zero nodes but a freshly allocated array — it returns
false, contradicting its own documentation and the spec. -/
theorem claim3_graph_is_empty_bug :
    graph_is_empty (graph_empty 4) = false ∧ (graph_empty 4).node_amount = 0 :=
  ⟨rfl, rfl⟩

/-- C4 (counterexample): for an input file declaring E = 1 edge, the graph
is created with capacity 4, not 2·E = 2: `get_number_of_edges` already
returns `edgeCount * 2` and `info_from_file` doubles it again. -/
theorem claim4_counterexample :
    (prepare_graph ["1\n", "A B\n"]).map graph_capacity = .ok 4 ∧ (4 : Nat) ≠ 2 * 1 :=
  ⟨by rfl, by decide⟩

/-- C4 (amended): when the Loader parses an edge-count line declaring
E > 0 edges and the edge lines validate, the graph is created with
capacity exactly 4·E (the count is doubled twice). -/
theorem claim4_capacity_4E (lines rest : List String) (E : Nat) (es : List graph_edges)
    (hsplit : get_edges_split lines = some (E, rest)) (hE : 0 < E)
    (hadd : add_edges_to_list [] rest = .ok es) :
    (prepare_graph lines).map graph_capacity = .ok (4 * E) :=
  loader_capacity lines rest E es hsplit hE hadd

theorem claim4_witness :
    get_edges_split ["1\n", "A B\n"] = some (1, ["A B\n"]) ∧ 0 < 1 ∧
      add_edges_to_list [] ["A B\n"] = .ok [("A", "B")] ∧
      (prepare_graph ["1\n", "A B\n"]).map graph_capacity = .ok (4 * 1) :=
  ⟨by rfl, by decide, by rfl,
    claim4_capacity_4E ["1\n", "A B\n"] ["A B\n"] 1 [("A", "B")] (by rfl) (by decide) (by rfl)⟩

/-- C5: from a file with edge count 2 and edge lines `A B` and `B C`, the
Loader builds a graph with exactly 3 distinct nodes {A, B, C} on which
`find_path(A, C)` returns true and `find_path(C, A)` returns false (edges
are directed, no reverse edge is inserted). -/
theorem claim5_loader_round_trip :
    (prepare_graph ["2\n", "A B\n", "B C\n"]).map (fun g =>
        (g.node_amount, decide (isStored g "A"), decide (isStored g "B"),
          decide (isStored g "C"),
          (find_path g "A" "C").map Prod.fst, (find_path g "C" "A").map Prod.fst))
      = .ok (3, true, true, true, some true, some false) := by rfl

/-- C6: `insert_edge` prepends the destination to the source's adjacency
list, so after any chronological sequence of edge insertions between
stored nodes, `neighbours` lists a node's new outgoing edges in
reverse-chronological order (most recently inserted first), ahead of its
previous adjacency list. -/
theorem claim6_neighbours_reverse_chronological (es : List graph_edges) (n : String)
    (g : graph) (hwf : WF g) (hn : isStored g n)
    (hes : ∀ e ∈ es, isStored g e.1 ∧ isStored g e.2) :
    graph_neighbours (insert_edges g es) n =
      ((es.filter (fun e => e.1 == n)).map Prod.snd).reverse ++ graph_neighbours g n :=
  insert_edges_neighbours es n g hwf hn hes

theorem claim6_witness :
    WF sampleGraph ∧ isStored sampleGraph "A" ∧
      (∀ e ∈ ([("A", "C"), ("B", "A"), ("A", "B")] : List graph_edges),
        isStored sampleGraph e.1 ∧ isStored sampleGraph e.2) ∧
      graph_neighbours (insert_edges sampleGraph [("A", "C"), ("B", "A"), ("A", "B")]) "A" =
        (([("A", "C"), ("B", "A"), ("A", "B")].filter
            (fun e => e.1 == "A")).map Prod.snd).reverse ++
          graph_neighbours sampleGraph "A" :=
  ⟨by decide, by decide, by decide,
    claim6_neighbours_reverse_chronological [("A", "C"), ("B", "A"), ("A", "B")] "A"
      sampleGraph (by decide) (by decide) (by decide)⟩

/-- C7: if any processed edge line contains a node name with a
non-alphanumeric character, the Loader fails with an error, and no graph
is built (graph construction only happens after the whole file has been
parsed successfully, so the Graph Container receives zero mutations). -/
theorem claim7_loader_rejects_bad_name (lines rest : List String) (E : Nat) (bad : String)
    (hsplit : get_edges_split lines = some (E, rest)) (hE : 0 < E)
    (hmem : bad ∈ rest) (hproc : strFront bad ≠ '#' ∧ strFront bad ≠ '\n')
    (hbad : (sscanf2 bad).1.toList.all isalnum = false ∨
            (sscanf2 bad).2.toList.all isalnum = false) :
    prepare_graph lines = .error () :=
  loader_rejects lines rest E bad hsplit hE hmem hproc hbad

theorem claim7_witness :
    get_edges_split ["1\n", "a-b c\n"] = some (1, ["a-b c\n"]) ∧ 0 < 1 ∧
      "a-b c\n" ∈ ["a-b c\n"] ∧
      (strFront "a-b c\n" ≠ '#' ∧ strFront "a-b c\n" ≠ '\n') ∧
      (sscanf2 "a-b c\n").1.toList.all isalnum = false ∧
      prepare_graph ["1\n", "a-b c\n"] = .error () :=
  ⟨by rfl, by decide, by decide, by decide, by decide,
    claim7_loader_rejects_bad_name ["1\n", "a-b c\n"] ["a-b c\n"] 1 "a-b c\n" (by rfl)
      (by decide) (by decide) (by decide) (Or.inl (by decide))⟩

/-- C8: on a well-formed graph, for a stored node `a` that appears in no
node's adjacency list (no incoming edges), `find_path g a a` returns
false: self-reachability is never reported via the empty path, only via a
nonempty cycle. -/
theorem claim8_self_reachability_needs_incoming (g : graph) (a : String) (hwf : WF g)
    (ha : isStored g a) (hni : noIncoming g a) :
    (find_path g a a).map Prod.fst = some false :=
  find_path_self_no_incoming g a hwf ha hni

theorem claim8_witness :
    WF sampleGraph ∧ isStored sampleGraph "A" ∧ noIncoming sampleGraph "A" ∧
      (find_path sampleGraph "A" "A").map Prod.fst = some false :=
  ⟨by decide, by decide, by decide,
    claim8_self_reachability_needs_incoming sampleGraph "A" (by decide) (by decide) (by decide)⟩

/-- C9: `find_path` terminates on every well-formed finite graph: a node
is enqueued only while unseen and is marked seen at that moment, so the
loop's measure `2·(unseen nodes) + queue length` strictly decreases and
the fuel `2·node_amount + 2` is never exhausted. -/
theorem claim9_find_path_terminates (g : graph) (src dest : String) (hwf : WF g) :
    ∃ p, find_path g src dest = some p :=
  find_path_terminates g src dest hwf

theorem claim9_witness :
    WF sampleGraph ∧ ∃ p, find_path sampleGraph "A" "C" = some p :=
  ⟨by decide, claim9_find_path_terminates sampleGraph "A" "C" (by decide)⟩

/-- C10: `graph_choose_node` returns an explicit NULL on a graph with
zero nodes, and on a well-formed non-empty graph it returns the stored
node at the lowest occupied array position. -/
theorem claim10_choose_node (g : graph) (hwf : WF g) :
    (g.node_amount = 0 → graph_choose_node g = none) ∧
    (0 < g.node_amount → ∃ i n, array_1d_has_value (garr g) i = true ∧
      (∀ j < i, array_1d_has_value (garr g) j = false) ∧
      array_1d_inspect_value (garr g) i = some n ∧ graph_choose_node g = some n) :=
  graph_choose_node_spec g hwf

theorem claim10_witness :
    WF sampleGraph ∧
      ((sampleGraph.node_amount = 0 → graph_choose_node sampleGraph = none) ∧
       (0 < sampleGraph.node_amount → ∃ i n,
          array_1d_has_value (garr sampleGraph) i = true ∧
          (∀ j < i, array_1d_has_value (garr sampleGraph) j = false) ∧
          array_1d_inspect_value (garr sampleGraph) i = some n ∧
          graph_choose_node sampleGraph = some n)) :=
  ⟨by decide, claim10_choose_node sampleGraph (by decide)⟩


end DoA
